import Mathlib

/-!
Shallow embedding of the sharding-spec module
(torch/distributed/_shard/sharding_spec/api.py): the chunk-based and the
enumerable sharding specification, their metadata builders, and the
chunk-variant distribution (shard) operation, together with proofs of the
behavioural properties stated in the module's design document.
-/

/-- Error taxonomy of the sharding-spec module: dimension and shard-list
validation failures, geometry failures, and the unsupported-operation
condition. -/
inductive SpecError where
  | invalidShardingDim
  | emptyShardList
  | inconsistentRanks
  | overlappingShards
  | shapeMismatch
  | notImplemented
  deriving DecidableEq, Repr

/-- Modelled from the spec: torch.distributed._remote_device (external to this
module). A placement names a target rank and, optionally, a device on that
rank; placement-string parsing is an external collaborator and out of scope. -/
structure RemoteDevice where
  rank : Nat
  device : String
  deriving DecidableEq, Repr

/-- One shard's geometry and owner (ShardMetadata from the metadata module). -/
structure ShardMetadata where
  shard_offsets : List Nat
  shard_sizes : List Nat
  placement : RemoteDevice
  deriving DecidableEq, Repr

/-- Element properties captured from the source tensor
(sharded_tensor_meta.TensorProperties). -/
structure TensorProperties where
  dtype : String
  layout : String
  requires_grad : Bool
  memory_format : String
  pin_memory : Bool
  deriving DecidableEq, Repr

/-- Canonical output of planning (sharded_tensor_meta.ShardedTensorMetadata):
an ordered shard-descriptor list, the global shape, and element properties. -/
structure ShardedTensorMetadata where
  shards_metadata : List ShardMetadata
  size : List Nat
  tensor_properties : TensorProperties
  deriving DecidableEq, Repr

/-- Modelled from the spec: get_split_size from _internals (imported by the
source file, not part of it): computeSplitSize(dimSize, numChunks) returns
ceil(dimSize / numChunks), the nominal chunk width. -/
def get_split_size (dim_size chunks : Nat) : Nat :=
  (dim_size + chunks - 1) / chunks

/-- Modelled from the spec: the signed value computed by get_chunked_dim_size
from _internals: computeChunkSizeAt(dimSize, splitSize, chunkIndex) returns
max(0, min(splitSize, dimSize - chunkIndex * splitSize)). -/
def get_chunked_dim_size_int (dim_size split_size idx : Int) : Int :=
  max 0 (min split_size (dim_size - idx * split_size))

/-- Chunk width at a given chunk index, as a natural number (the signed value
is never negative). -/
def get_chunked_dim_size (dim_size split_size idx : Nat) : Nat :=
  (get_chunked_dim_size_int dim_size split_size idx).toNat

/-- Python list-index normalization: a negative index counts from the end of a
list of length n. -/
def pyIdx (n : Nat) (i : Int) : Nat :=
  (if i < 0 then i + n else i).toNat

/-- Chunk-variant sharding spec (ChunkShardingSpec): a sharding dimension and
an ordered placement list. Placements here are already-normalized remote
devices; the dataclass construction step that normalizes placement strings in
place is modelled separately below. -/
structure ChunkShardingSpec where
  dim : Int
  placements : List RemoteDevice
  deriving DecidableEq, Repr

/-- Loop of ChunkShardingSpec.build_metadata: iterate the placements with their
indices; whenever the chunk width at the index is positive, emit a
ShardMetadata whose offsets are all zero except split_size * idx on the
sharded dimension and whose sizes are the global sizes except the chunk width
on the sharded dimension. -/
def buildShardsLoop (tensor_sizes : List Nat) (d sharding_dim_size split_size : Nat) :
    Nat → List RemoteDevice → List ShardMetadata
  | _, [] => []
  | idx, placement :: rest =>
    let chunked_dim_size := get_chunked_dim_size sharding_dim_size split_size idx
    if 0 < chunked_dim_size then
      { shard_offsets := (List.replicate tensor_sizes.length 0).set d (split_size * idx),
        shard_sizes := tensor_sizes.set d chunked_dim_size,
        placement := placement } ::
        buildShardsLoop tensor_sizes d sharding_dim_size split_size (idx + 1) rest
    else
      buildShardsLoop tensor_sizes d sharding_dim_size split_size (idx + 1) rest

/-- Embedding of ChunkShardingSpec.build_metadata: re-validate the sharding
dimension against the rank of the global shape passed in, then emit one shard
descriptor per placement whose chunk is non-empty. -/
def ChunkShardingSpec.build_metadata (spec : ChunkShardingSpec)
    (tensor_sizes : List Nat) (tensor_properties : TensorProperties) :
    Except SpecError ShardedTensorMetadata :=
  let tensor_num_dim := tensor_sizes.length
  if (tensor_num_dim : Int) ≤ spec.dim ∨ spec.dim < -(tensor_num_dim : Int) then
    .error .invalidShardingDim
  else
    let d := pyIdx tensor_num_dim spec.dim
    let sharding_dim_size := tensor_sizes.getD d 0
    let chunks := spec.placements.length
    let split_size := get_split_size sharding_dim_size chunks
    .ok { shards_metadata :=
            buildShardsLoop tensor_sizes d sharding_dim_size split_size 0 spec.placements,
          size := tensor_sizes,
          tensor_properties := tensor_properties }

lemma mul_split_ge (N k : Nat) (h : 1 ≤ k) : N ≤ k * get_split_size N k := by
  have h1 : k * ((N + k - 1) / k) + (N + k - 1) % k = N + k - 1 := Nat.div_add_mod _ _
  have h2 : (N + k - 1) % k < k := Nat.mod_lt _ h
  unfold get_split_size
  generalize hR : (N + k - 1) % k = R at h1 h2
  generalize hK : k * ((N + k - 1) / k) = K at h1 ⊢
  omega

lemma chunk_term_eq (N s a : Int) (hs : 0 ≤ s) :
    max 0 (min s (N - a)) = min N (a + s) - min N a := by
  omega

lemma chunk_sum_eq (N s : Int) (hN : 0 ≤ N) (hs : 0 ≤ s) (k : Nat) :
    (∑ i ∈ Finset.range k, get_chunked_dim_size_int N s i) = min N (k * s) := by
  induction k with
  | zero => simpa using (by omega : min N 0 = 0).symm
  | succ n ih =>
    rw [Finset.sum_range_succ, ih]
    unfold get_chunked_dim_size_int
    have h := chunk_term_eq N s ((n : Int) * s) hs
    push_cast
    rw [h]
    ring_nf

lemma chunk_le_split (N s i : Nat) : get_chunked_dim_size N s i ≤ s := by
  unfold get_chunked_dim_size get_chunked_dim_size_int
  omega

lemma chunk_pos_iff (N s i : Nat) :
    0 < get_chunked_dim_size N s i ↔ i < get_split_size N s := by
  unfold get_chunked_dim_size get_chunked_dim_size_int get_split_size
  rcases Nat.eq_zero_or_pos s with hs | hs
  · subst hs
    simp
  · have h1 : (i + 1 ≤ (N + s - 1) / s) ↔ (i + 1) * s ≤ N + s - 1 :=
      Nat.le_div_iff_mul_le hs
    rw [show ((i : Int) * (s : Int)) = ((i * s : Nat) : Int) by push_cast; ring]
    rw [show (i + 1) * s = i * s + s by ring] at h1
    generalize i * s = a at h1 ⊢
    generalize (N + s - 1) / s = q at h1 ⊢
    omega

lemma countP_range_lt (k m : Nat) :
    (List.range k).countP (fun i => decide (i < m)) = min k m := by
  induction k with
  | zero => simp
  | succ n ih =>
    rw [List.range_succ, List.countP_append, ih]
    by_cases h : n < m <;> simp [List.countP_cons, h] <;> omega

lemma getD_set_self : ∀ (l : List Nat) (i v : Nat), i < l.length →
    (l.set i v).getD i 0 = v
  | [], i, _, h => by simp at h
  | _ :: _, 0, _, _ => rfl
  | x :: xs, i + 1, v, h => by
    have := getD_set_self xs i v (by simpa using h)
    simpa using this

lemma getD_replicate_set_self (L d v : Nat) (h : d < L) :
    ((List.replicate L 0).set d v).getD d 0 = v :=
  getD_set_self _ _ _ (by simpa using h)

/-- C4: with splitSize = ceil(dimSize / numChunks), the chunk widths at indices
0 .. numChunks-1 sum to dimSize exactly, and the chunk width at every index
(also past the point where the dimension is exhausted) is non-negative. -/
theorem chunk_sizes_sum_to_dim_size (dim_size chunks : Nat) (h : 1 ≤ chunks) :
    (∑ i ∈ Finset.range chunks,
        get_chunked_dim_size_int dim_size (get_split_size dim_size chunks) i) = dim_size ∧
    ∀ idx : Int, 0 ≤ get_chunked_dim_size_int dim_size (get_split_size dim_size chunks) idx := by
  constructor
  · rw [chunk_sum_eq _ _ (by exact_mod_cast Nat.zero_le _) (by exact_mod_cast Nat.zero_le _)]
    have hge : dim_size ≤ chunks * get_split_size dim_size chunks := mul_split_ge _ _ h
    have hcast : (dim_size : Int) ≤ (chunks : Int) * (get_split_size dim_size chunks : Int) := by
      exact_mod_cast hge
    omega
  · intro idx
    exact le_max_left _ _

theorem chunk_sizes_sum_to_dim_size_witness :
    1 ≤ 3 ∧
    ((∑ i ∈ Finset.range 3,
        get_chunked_dim_size_int ((10 : Nat) : Int) ((get_split_size 10 3 : Nat) : Int) i) =
          ((10 : Nat) : Int) ∧
     ∀ idx : Int, 0 ≤ get_chunked_dim_size_int ((10 : Nat) : Int)
        ((get_split_size 10 3 : Nat) : Int) idx) :=
  ⟨by decide, chunk_sizes_sum_to_dim_size 10 3 (by decide)⟩

lemma buildShardsLoop_eq_filterMap (ts : List Nat) (d N s : Nat) :
    ∀ (ps : List RemoteDevice) (n : Nat),
      buildShardsLoop ts d N s n ps =
        (ps.enumFrom n).filterMap (fun p =>
          if 0 < get_chunked_dim_size N s p.1 then
            some { shard_offsets := (List.replicate ts.length 0).set d (s * p.1),
                   shard_sizes := ts.set d (get_chunked_dim_size N s p.1),
                   placement := p.2 }
          else none) := by
  intro ps
  induction ps with
  | nil => intro n; rfl
  | cons p rest ih =>
    intro n
    by_cases hc : 0 < get_chunked_dim_size N s n <;>
      simp [buildShardsLoop, List.enumFrom, List.filterMap_cons, hc, ih (n + 1)]

lemma buildShardsLoop_length (ts : List Nat) (d N s : Nat) :
    ∀ (ps : List RemoteDevice) (n : Nat),
      (buildShardsLoop ts d N s n ps).length =
        (List.range' n ps.length).countP (fun i => decide (0 < get_chunked_dim_size N s i)) := by
  intro ps
  induction ps with
  | nil => intro n; rfl
  | cons p rest ih =>
    intro n
    by_cases hc : 0 < get_chunked_dim_size N s n <;>
      simp [buildShardsLoop, List.range', List.countP_cons, hc, ih (n + 1)]

lemma buildShardsLoop_mem (ts : List Nat) (d N s : Nat) :
    ∀ (ps : List RemoteDevice) (n : Nat) (a : ShardMetadata),
      a ∈ buildShardsLoop ts d N s n ps →
      ∃ i, n ≤ i ∧
        a.shard_offsets = (List.replicate ts.length 0).set d (s * i) ∧
        a.shard_sizes = ts.set d (get_chunked_dim_size N s i) := by
  intro ps
  induction ps with
  | nil => intro n a ha; simp [buildShardsLoop] at ha
  | cons p rest ih =>
    intro n a ha
    by_cases hc : 0 < get_chunked_dim_size N s n
    · simp only [buildShardsLoop, if_pos hc, List.mem_cons] at ha
      rcases ha with ha | ha
      · exact ⟨n, le_refl n, by simp [ha], by simp [ha]⟩
      · rcases ih (n + 1) a ha with ⟨i, hi, h1, h2⟩
        exact ⟨i, by omega, h1, h2⟩
    · simp only [buildShardsLoop, if_neg hc] at ha
      rcases ih (n + 1) a ha with ⟨i, hi, h1, h2⟩
      exact ⟨i, by omega, h1, h2⟩

lemma buildShardsLoop_pairwise (ts : List Nat) (d N s : Nat) (hd : d < ts.length) :
    ∀ (ps : List RemoteDevice) (n : Nat),
      (buildShardsLoop ts d N s n ps).Pairwise (fun a b =>
        a.shard_offsets.getD d 0 + a.shard_sizes.getD d 0 ≤ b.shard_offsets.getD d 0) := by
  intro ps
  induction ps with
  | nil => intro n; simp [buildShardsLoop]
  | cons p rest ih =>
    intro n
    by_cases hc : 0 < get_chunked_dim_size N s n
    · simp only [buildShardsLoop, if_pos hc]
      refine List.Pairwise.cons ?_ (ih (n + 1))
      intro b hb
      rcases buildShardsLoop_mem ts d N s rest (n + 1) b hb with ⟨i, hi, h1, h2⟩
      have hoff : ((List.replicate ts.length 0).set d (s * n)).getD d 0 = s * n :=
        getD_replicate_set_self _ _ _ hd
      have hsz : (ts.set d (get_chunked_dim_size N s n)).getD d 0 =
          get_chunked_dim_size N s n := getD_set_self _ _ _ hd
      have hoffb : b.shard_offsets.getD d 0 = s * i := by
        rw [h1]; exact getD_replicate_set_self _ _ _ hd
      simp only [hoff, hsz, hoffb]
      have hle : get_chunked_dim_size N s n ≤ s := chunk_le_split N s n
      have : s * n + s ≤ s * i := by
        calc s * n + s = s * (n + 1) := by ring
          _ ≤ s * i := Nat.mul_le_mul_left s hi
      omega
    · simp only [buildShardsLoop, if_neg hc]
      exact ih (n + 1)

/-- C2: for a chunk spec with an in-range sharding dimension, build_metadata
emits descriptors by iterating the placements in list order: each index with a
positive chunk width contributes exactly one descriptor, with all-zero offsets
except splitSize * idx on the (normalized) sharded dimension, and sizes equal
to the global shape except the chunk width on that dimension; indices with a
zero chunk width contribute nothing. -/
theorem chunk_build_metadata_characterization
    (spec : ChunkShardingSpec) (tensor_sizes : List Nat) (props : TensorProperties)
    (d N s : Nat)
    (_hk : spec.placements ≠ [])
    (hdim : ¬ ((tensor_sizes.length : Int) ≤ spec.dim ∨
               spec.dim < -(tensor_sizes.length : Int)))
    (hd : d = pyIdx tensor_sizes.length spec.dim)
    (hN : N = tensor_sizes.getD d 0)
    (hs : s = get_split_size N spec.placements.length) :
    spec.build_metadata tensor_sizes props =
      .ok { shards_metadata :=
              spec.placements.enum.filterMap (fun p =>
                if 0 < get_chunked_dim_size N s p.1 then
                  some { shard_offsets :=
                           (List.replicate tensor_sizes.length 0).set d (s * p.1),
                         shard_sizes :=
                           tensor_sizes.set d (get_chunked_dim_size N s p.1),
                         placement := p.2 }
                else none),
            size := tensor_sizes,
            tensor_properties := props } := by
  unfold ChunkShardingSpec.build_metadata
  rw [if_neg hdim]
  subst hd; subst hN; subst hs
  simp only [buildShardsLoop_eq_filterMap, List.enum]

theorem chunk_build_metadata_characterization_witness :
    ChunkShardingSpec.build_metadata ⟨0, [⟨0, "cpu"⟩, ⟨1, "cpu"⟩, ⟨2, "cpu"⟩]⟩ [10]
        ⟨"float32", "strided", false, "contiguous_format", false⟩ =
      .ok { shards_metadata :=
              [⟨[0], [4], ⟨0, "cpu"⟩⟩, ⟨[4], [4], ⟨1, "cpu"⟩⟩, ⟨[8], [2], ⟨2, "cpu"⟩⟩],
            size := [10],
            tensor_properties := ⟨"float32", "strided", false, "contiguous_format", false⟩ } := by
  have h := chunk_build_metadata_characterization
    ⟨0, [⟨0, "cpu"⟩, ⟨1, "cpu"⟩, ⟨2, "cpu"⟩]⟩ [10]
    ⟨"float32", "strided", false, "contiguous_format", false⟩ 0 10 4
    (by decide) (by decide) rfl rfl rfl
  rw [h]
  rfl

lemma countP_range_chunk (k N s : Nat) :
    (List.range k).countP (fun i => decide (0 < get_chunked_dim_size N s i)) =
      min k (get_split_size N s) := by
  rw [← countP_range_lt k (get_split_size N s)]
  exact List.countP_congr (fun i _ => by
    simp only [decide_eq_true_eq]
    exact chunk_pos_iff N s i)

lemma pyIdx_lt (n : Nat) (i : Int)
    (h : ¬ ((n : Int) ≤ i ∨ i < -(n : Int))) : pyIdx n i < n := by
  unfold pyIdx
  split <;> omega

/-- C3: the number of descriptors emitted by build_metadata equals
min(k, ceil(N / ceil(N / k))) — ceil division realized by get_split_size —
and the half-open ranges of distinct emitted descriptors on the (normalized)
sharded dimension do not intersect. -/
theorem chunk_build_metadata_count_and_disjoint
    (spec : ChunkShardingSpec) (tensor_sizes : List Nat) (props : TensorProperties)
    (meta : ShardedTensorMetadata) (d N : Nat)
    (_hk : 1 ≤ spec.placements.length)
    (hd : d = pyIdx tensor_sizes.length spec.dim)
    (hN : N = tensor_sizes.getD d 0)
    (hmeta : spec.build_metadata tensor_sizes props = .ok meta) :
    meta.shards_metadata.length =
      min spec.placements.length
        (get_split_size N (get_split_size N spec.placements.length)) ∧
    meta.shards_metadata.Pairwise (fun a b =>
      a.shard_offsets.getD d 0 + a.shard_sizes.getD d 0 ≤ b.shard_offsets.getD d 0 ∨
      b.shard_offsets.getD d 0 + b.shard_sizes.getD d 0 ≤ a.shard_offsets.getD d 0) := by
  subst hd; subst hN
  unfold ChunkShardingSpec.build_metadata at hmeta
  by_cases hdim : ((tensor_sizes.length : Int) ≤ spec.dim ∨
      spec.dim < -(tensor_sizes.length : Int))
  · rw [if_pos hdim] at hmeta
    exact absurd hmeta (by simp)
  · rw [if_neg hdim] at hmeta
    simp only [Except.ok.injEq] at hmeta
    subst hmeta
    have hdlt : pyIdx tensor_sizes.length spec.dim < tensor_sizes.length :=
      pyIdx_lt _ _ hdim
    constructor
    · rw [show (ShardedTensorMetadata.mk _ _ _).shards_metadata =
          buildShardsLoop tensor_sizes (pyIdx tensor_sizes.length spec.dim)
            (tensor_sizes.getD (pyIdx tensor_sizes.length spec.dim) 0)
            (get_split_size (tensor_sizes.getD (pyIdx tensor_sizes.length spec.dim) 0)
              spec.placements.length) 0 spec.placements from rfl]
      rw [buildShardsLoop_length, ← List.range_eq_range']
      exact countP_range_chunk _ _ _
    · exact List.Pairwise.imp (fun h => Or.inl h)
        (buildShardsLoop_pairwise _ _ _ _ hdlt _ _)

theorem chunk_build_metadata_count_and_disjoint_witness :
    (ShardedTensorMetadata.mk
        [⟨[0], [4], ⟨0, "cpu"⟩⟩, ⟨[4], [4], ⟨1, "cpu"⟩⟩, ⟨[8], [2], ⟨2, "cpu"⟩⟩]
        [10] ⟨"float32", "strided", false, "contiguous_format", false⟩).shards_metadata.length =
      min 3 (get_split_size 10 (get_split_size 10 3)) ∧
    (ShardedTensorMetadata.mk
        [⟨[0], [4], ⟨0, "cpu"⟩⟩, ⟨[4], [4], ⟨1, "cpu"⟩⟩, ⟨[8], [2], ⟨2, "cpu"⟩⟩]
        [10] ⟨"float32", "strided", false,
          "contiguous_format", false⟩).shards_metadata.Pairwise (fun a b =>
      a.shard_offsets.getD 0 0 + a.shard_sizes.getD 0 0 ≤ b.shard_offsets.getD 0 0 ∨
      b.shard_offsets.getD 0 0 + b.shard_sizes.getD 0 0 ≤ a.shard_offsets.getD 0 0) :=
  chunk_build_metadata_count_and_disjoint
    ⟨0, [⟨0, "cpu"⟩, ⟨1, "cpu"⟩, ⟨2, "cpu"⟩]⟩ [10]
    ⟨"float32", "strided", false, "contiguous_format", false⟩
    (ShardedTensorMetadata.mk
        [⟨[0], [4], ⟨0, "cpu"⟩⟩, ⟨[4], [4], ⟨1, "cpu"⟩⟩, ⟨[8], [2], ⟨2, "cpu"⟩⟩]
        [10] ⟨"float32", "strided", false, "contiguous_format", false⟩)
    0 10 (by decide) rfl rfl rfl

/-- C9: build_metadata re-validates the sharding dimension against the rank of
the global shape actually passed in: it returns the invalid-dimension error
exactly when the dimension does not resolve, after negative-index
normalization, to a value in [0, tensorRank) for that shape. -/
theorem chunk_build_metadata_dim_validation
    (spec : ChunkShardingSpec) (tensor_sizes : List Nat) (props : TensorProperties) :
    spec.build_metadata tensor_sizes props = .error .invalidShardingDim ↔
      ¬ (0 ≤ (if spec.dim < 0 then spec.dim + tensor_sizes.length else spec.dim) ∧
         (if spec.dim < 0 then spec.dim + tensor_sizes.length else spec.dim) <
           (tensor_sizes.length : Int)) := by
  unfold ChunkShardingSpec.build_metadata
  by_cases hdim : ((tensor_sizes.length : Int) ≤ spec.dim ∨
      spec.dim < -(tensor_sizes.length : Int))
  · rw [if_pos hdim]
    simp only [true_iff, iff_true_intro rfl]
    omega
  · rw [if_neg hdim]
    simp only [iff_iff_implies_and_implies]
    constructor
    · intro h
      exact absurd h (by simp)
    · intro h
      exact absurd h (by omega)

/-- Modelled from the spec: symbolic view of a local tensor value produced by
the external tensor library during the distribution step, recording its
provenance from the broadcast buffer through the slice and copy primitives. -/
inductive TensorExpr where
  | base : TensorExpr
  | narrow (t : TensorExpr) (dim offset length : Nat) : TensorExpr
  | clone (t : TensorExpr) : TensorExpr
  | detach (t : TensorExpr) : TensorExpr
  | contiguous (t : TensorExpr) : TensorExpr
  deriving DecidableEq, Repr

/-- Modelled from the spec: whether a tensor value shares storage with the
broadcast buffer. The buffer shares with itself; a narrow is a view; a clone
is an independent copy; detach and contiguous preserve the storage status of
their argument. -/
def sharesBase : TensorExpr → Bool
  | .base => true
  | .narrow t _ _ _ => sharesBase t
  | .clone _ => false
  | .detach t => sharesBase t
  | .contiguous t => sharesBase t

/-- Modelled from the spec: whether a tensor value participates in gradient
history as a node derived from the broadcast tensor. Narrow, clone and
contiguous record autograd history; detach cuts it, leaving a fresh leaf. -/
def derivedFromSource : TensorExpr → Bool
  | .base => true
  | .narrow t _ _ _ => derivedFromSource t
  | .clone t => derivedFromSource t
  | .detach _ => false
  | .contiguous t => derivedFromSource t

/-- Observable properties of the input tensor used by the shard operation. -/
structure Tensor where
  sizes : List Nat
  dtype : String
  layout : String
  requires_grad : Bool
  is_pinned : Bool
  deriving DecidableEq, Repr

/-- Element properties captured from the source tensor at the start of shard,
with the memory format normalized to the canonical contiguous tag. -/
def tensorPropsOf (t : Tensor) : TensorProperties :=
  { dtype := t.dtype, layout := t.layout, requires_grad := t.requires_grad,
    memory_format := "torch.contiguous_format", pin_memory := t.is_pinned }

/-- Modelled from the spec: _parse_and_validate_remote_device resolves a
placement into its (rank, device) pair; group-membership validation belongs to
the external collaborator and is out of scope here. -/
def parse_and_validate_remote_device (placement : RemoteDevice) : Nat × String :=
  (placement.rank, placement.device)

/-- Pairing of a local tensor with its descriptor (Shard from the
sharded-tensor package). The tensor_requires_grad field models the
requires_grad attribute written onto the local tensor before it is stored. -/
structure Shard where
  tensor : TensorExpr
  tensor_requires_grad : Bool
  metadata : ShardMetadata
  deriving DecidableEq, Repr

/-- Modelled from the spec: the distributed-tensor handle returned by the
sharded-tensor container, holding the caller's local shards, the global
shape, and the placement spec recorded onto the handle. -/
structure ShardedTensorHandle where
  local_shards : List Shard
  size : List Nat
  sharding_spec : ChunkShardingSpec
  deriving DecidableEq, Repr

/-- Externally observable actions performed by a shard operation, in order. -/
inductive Event where
  | buildMetadata : Event
  | broadcast (src : Nat) : Event
  deriving DecidableEq, Repr

/-- Narrowing condition of the slicing loop: the shard extent on a dimension
is strictly smaller than the global extent of that dimension. -/
def narrowHit (global_sizes : List Nat) (idx : Nat) (p : Nat × Nat) : Bool :=
  p.2 < global_sizes.getD idx 0

/-- Slicing loop of ChunkShardingSpec.shard: for each dimension, in order,
whose shard size is strictly smaller than the global size, narrow the running
tensor and take a contiguous detached clone; all other dimensions leave the
running tensor untouched. -/
def shardNarrowLoop (global_sizes : List Nat) :
    Nat → List (Nat × Nat) → TensorExpr → TensorExpr
  | _, [], t => t
  | idx, p :: rest, t =>
    shardNarrowLoop global_sizes (idx + 1) rest
      (if narrowHit global_sizes idx p then
         .contiguous (.detach (.clone (.narrow t idx p.1 p.2)))
       else t)

/-- Local tensor computed for one descriptor owned by the calling rank,
starting from the broadcast buffer. -/
def shardLocalTensor (global_sizes offsets sizes : List Nat) : TensorExpr :=
  shardNarrowLoop global_sizes 0 (offsets.zip sizes) .base

/-- Classification loop of ChunkShardingSpec.shard: iterate the metadata's
shard list in order, keep exactly the descriptors whose placement resolves to
the calling rank, and pair each with its local slice, with the
gradient-tracking flag copied from the source tensor. -/
def shardGatherLoop (tensor : Tensor) (current_rank : Nat) :
    List ShardMetadata → List Shard
  | [] => []
  | shard_meta :: rest =>
    let rd := parse_and_validate_remote_device shard_meta.placement
    if rd.1 = current_rank then
      { tensor := shardLocalTensor tensor.sizes shard_meta.shard_offsets
          shard_meta.shard_sizes,
        tensor_requires_grad := tensor.requires_grad,
        metadata := shard_meta } :: shardGatherLoop tensor current_rank rest
    else
      shardGatherLoop tensor current_rank rest

/-- Embedding of ChunkShardingSpec.shard: capture element properties, build
metadata (failures propagate before any collective), broadcast the full tensor
from the source rank, then keep exactly the descriptors whose placement rank
equals the caller's. The event list records the observable actions in order. -/
def ChunkShardingSpec.shard (spec : ChunkShardingSpec) (tensor : Tensor)
    (src_rank current_rank : Nat) :
    List Event × Except SpecError ShardedTensorHandle :=
  match spec.build_metadata tensor.sizes (tensorPropsOf tensor) with
  | .error e => ([Event.buildMetadata], .error e)
  | .ok tensor_meta =>
    ([Event.buildMetadata, Event.broadcast src_rank],
     .ok { local_shards := shardGatherLoop tensor current_rank tensor_meta.shards_metadata,
           size := tensor.sizes,
           sharding_spec := spec })

lemma shardGatherLoop_metadata (tensor : Tensor) (r : Nat) :
    ∀ l : List ShardMetadata,
      (shardGatherLoop tensor r l).map Shard.metadata =
        l.filter (fun sm => (parse_and_validate_remote_device sm.placement).1 == r) := by
  intro l
  induction l with
  | nil => rfl
  | cons sm rest ih =>
    by_cases h : (parse_and_validate_remote_device sm.placement).1 = r <;>
      simp [shardGatherLoop, List.filter_cons, h, ih]

/-- C1: for every chunk shard operation whose metadata builds successfully, the
returned handle of each rank holds exactly the descriptors of the shared
metadata whose placement resolves to that rank, in metadata order; the
classification is the same pure filter for every rank, so the shard-to-rank
assignment is determined by the spec and the input shape alone. -/
theorem chunk_shard_keeps_exactly_own_ranks
    (spec : ChunkShardingSpec) (tensor : Tensor) (src_rank current_rank : Nat)
    (meta : ShardedTensorMetadata)
    (hmeta : spec.build_metadata tensor.sizes (tensorPropsOf tensor) = .ok meta) :
    (spec.shard tensor src_rank current_rank).2.map
        (fun h => h.local_shards.map Shard.metadata) =
      .ok (meta.shards_metadata.filter
        (fun sm => (parse_and_validate_remote_device sm.placement).1 == current_rank)) := by
  unfold ChunkShardingSpec.shard
  rw [hmeta]
  simp only [Except.map]
  rw [shardGatherLoop_metadata]

theorem chunk_shard_keeps_exactly_own_ranks_witness :
    (ChunkShardingSpec.shard ⟨0, [⟨0, "cpu"⟩, ⟨1, "cpu"⟩, ⟨2, "cpu"⟩]⟩
        ⟨[10], "float32", "strided", false, false⟩ 0 1).2.map
        (fun h => h.local_shards.map Shard.metadata) =
      .ok ([⟨[0], [4], ⟨0, "cpu"⟩⟩, ⟨[4], [4], ⟨1, "cpu"⟩⟩,
            ⟨[8], [2], ⟨2, "cpu"⟩⟩].filter
        (fun sm => (parse_and_validate_remote_device sm.placement).1 == 1)) :=
  chunk_shard_keeps_exactly_own_ranks ⟨0, [⟨0, "cpu"⟩, ⟨1, "cpu"⟩, ⟨2, "cpu"⟩]⟩
    ⟨[10], "float32", "strided", false, false⟩ 0 1
    ⟨[⟨[0], [4], ⟨0, "cpu"⟩⟩, ⟨[4], [4], ⟨1, "cpu"⟩⟩, ⟨[8], [2], ⟨2, "cpu"⟩⟩],
     [10], ⟨"float32", "strided", false, "torch.contiguous_format", false⟩⟩ rfl

/-- C6: when metadata building fails, the shard operation propagates that very
error with no broadcast collective issued and no handle (no partial
distribution state) created; the out-of-range sharding-dimension check inside
build_metadata is one such failure. -/
theorem chunk_shard_fails_before_broadcast
    (spec : ChunkShardingSpec) (tensor : Tensor) (src_rank current_rank : Nat)
    (e : SpecError)
    (hmeta : spec.build_metadata tensor.sizes (tensorPropsOf tensor) = .error e) :
    spec.shard tensor src_rank current_rank = ([Event.buildMetadata], .error e) ∧
    ∀ s, Event.broadcast s ∉ (spec.shard tensor src_rank current_rank).1 := by
  unfold ChunkShardingSpec.shard
  rw [hmeta]
  exact ⟨rfl, by simp⟩

theorem chunk_shard_fails_before_broadcast_witness :
    ChunkShardingSpec.shard ⟨5, [⟨0, "cpu"⟩]⟩ ⟨[10], "float32", "strided", false, false⟩ 0 0 =
        ([Event.buildMetadata], .error .invalidShardingDim) ∧
    ∀ s, Event.broadcast s ∉
      (ChunkShardingSpec.shard ⟨5, [⟨0, "cpu"⟩]⟩
        ⟨[10], "float32", "strided", false, false⟩ 0 0).1 :=
  chunk_shard_fails_before_broadcast ⟨5, [⟨0, "cpu"⟩]⟩
    ⟨[10], "float32", "strided", false, false⟩ 0 0 .invalidShardingDim rfl

lemma shardNarrowLoop_no_hit (g : List Nat) :
    ∀ (l : List (Nat × Nat)) (n : Nat) (t : TensorExpr),
      (∀ q ∈ l.enumFrom n, narrowHit g q.1 q.2 = false) →
      shardNarrowLoop g n l t = t := by
  intro l
  induction l with
  | nil => intro n t _; rfl
  | cons p rest ih =>
    intro n t hall
    have hp : narrowHit g n p = false := by
      simpa using hall (n, p) (by simp [List.enumFrom])
    simp only [shardNarrowLoop, hp, Bool.false_eq_true, if_false]
    exact ih (n + 1) t (fun q hq => hall q (by simp [List.enumFrom, hq]))

lemma shardNarrowLoop_hit (g : List Nat) :
    ∀ (l : List (Nat × Nat)) (n : Nat) (t : TensorExpr),
      (∃ q ∈ l.enumFrom n, narrowHit g q.1 q.2 = true) →
      ∃ u, shardNarrowLoop g n l t = .contiguous (.detach (.clone u)) := by
  intro l
  induction l with
  | nil => intro n t h; simp [List.enumFrom] at h
  | cons p rest ih =>
    intro n t h
    by_cases hp : narrowHit g n p = true
    · simp only [shardNarrowLoop, hp, if_true]
      by_cases hrest : ∃ q ∈ rest.enumFrom (n + 1), narrowHit g q.1 q.2 = true
      · exact ih (n + 1) _ hrest
      · push_neg at hrest
        rw [shardNarrowLoop_no_hit g rest (n + 1) _
          (fun q hq => by simpa using hrest q hq)]
        exact ⟨.narrow t n p.1 p.2, rfl⟩
    · have hb : narrowHit g n p = false := by simpa using hp
      simp only [shardNarrowLoop, hb, Bool.false_eq_true, if_false]
      apply ih (n + 1) t
      rcases h with ⟨q, hq, hqt⟩
      simp only [List.enumFrom, List.mem_cons] at hq
      rcases hq with rfl | hq'
      · exact absurd hqt (by simp [hb])
      · exact ⟨q, hq', hqt⟩

lemma sharesBase_pattern (u : TensorExpr) :
    sharesBase (.contiguous (.detach (.clone u))) = false := rfl

lemma derivedFromSource_pattern (u : TensorExpr) :
    derivedFromSource (.contiguous (.detach (.clone u))) = false := rfl

lemma shardGatherLoop_mem (tensor : Tensor) (r : Nat) :
    ∀ (l : List ShardMetadata) (sh : Shard), sh ∈ shardGatherLoop tensor r l →
      sh.tensor_requires_grad = tensor.requires_grad ∧
      sh.tensor = shardLocalTensor tensor.sizes sh.metadata.shard_offsets
        sh.metadata.shard_sizes := by
  intro l
  induction l with
  | nil => intro sh hsh; simp [shardGatherLoop] at hsh
  | cons sm rest ih =>
    intro sh hsh
    by_cases h : (parse_and_validate_remote_device sm.placement).1 = r
    · simp only [shardGatherLoop, h, if_pos, List.mem_cons] at hsh
      rcases hsh with rfl | hsh
      · exact ⟨rfl, rfl⟩
      · exact ih sh hsh
    · simp only [shardGatherLoop, h, if_neg, if_false] at hsh
      exact ih sh hsh

/-- C5 counterexample: with one placement, the single shard's sizes equal the
global size in every dimension; the shard operation then stores the broadcast
tensor itself, which shares storage with the broadcast buffer and is part of
its autograd lineage, contradicting the claim that the stored local tensor is
an independent detached copy in this case as well. -/
theorem chunk_shard_full_size_shard_not_copied :
    (ChunkShardingSpec.shard ⟨0, [⟨0, "cpu"⟩]⟩
        ⟨[4], "float32", "strided", true, false⟩ 0 0).2 =
      .ok ⟨[⟨TensorExpr.base, true, ⟨[0], [4], ⟨0, "cpu"⟩⟩⟩], [4], ⟨0, [⟨0, "cpu"⟩]⟩⟩ ∧
    sharesBase TensorExpr.base = true ∧
    derivedFromSource TensorExpr.base = true :=
  ⟨rfl, rfl, rfl⟩

/-- C5 amended: every shard kept by the classification loop stores the source
tensor's gradient-tracking flag and the slicing loop's result on its geometry;
when the shard is strictly smaller than the global size in at least one
dimension, that result is a contiguous detached clone that shares no storage
with the broadcast buffer and carries no autograd lineage from it; when the
shard's sizes equal the global size in every dimension, the stored local
tensor is the broadcast tensor itself. -/
theorem chunk_shard_local_tensor_provenance
    (tensor : Tensor) (current_rank : Nat) (l : List ShardMetadata) (sh : Shard)
    (hsh : sh ∈ shardGatherLoop tensor current_rank l) :
    sh.tensor_requires_grad = tensor.requires_grad ∧
    sh.tensor = shardLocalTensor tensor.sizes sh.metadata.shard_offsets
      sh.metadata.shard_sizes ∧
    ((∃ q ∈ (sh.metadata.shard_offsets.zip sh.metadata.shard_sizes).enum,
        narrowHit tensor.sizes q.1 q.2 = true) →
      (∃ u, sh.tensor = .contiguous (.detach (.clone u))) ∧
      sharesBase sh.tensor = false ∧ derivedFromSource sh.tensor = false) ∧
    ((∀ q ∈ (sh.metadata.shard_offsets.zip sh.metadata.shard_sizes).enum,
        narrowHit tensor.sizes q.1 q.2 = false) →
      sh.tensor = .base) := by
  obtain ⟨hrg, ht⟩ := shardGatherLoop_mem tensor current_rank l sh hsh
  refine ⟨hrg, ht, ?_, ?_⟩
  · intro hex
    obtain ⟨u, hu⟩ := shardNarrowLoop_hit tensor.sizes
      (sh.metadata.shard_offsets.zip sh.metadata.shard_sizes) 0 .base
      (by simpa [List.enum] using hex)
    have ht' : sh.tensor = .contiguous (.detach (.clone u)) := by
      rw [ht]; exact hu
    exact ⟨⟨u, ht'⟩, by rw [ht']; rfl, by rw [ht']; rfl⟩
  · intro hall
    rw [ht]
    exact shardNarrowLoop_no_hit _ _ _ _ (by simpa [List.enum] using hall)

theorem chunk_shard_local_tensor_provenance_witness :
    sharesBase (Shard.mk (.contiguous (.detach (.clone (.narrow .base 0 4 4)))) false
      ⟨[4], [4], ⟨1, "cpu"⟩⟩).tensor = false ∧
    derivedFromSource (Shard.mk (.contiguous (.detach (.clone (.narrow .base 0 4 4)))) false
      ⟨[4], [4], ⟨1, "cpu"⟩⟩).tensor = false :=
  ((chunk_shard_local_tensor_provenance ⟨[10], "float32", "strided", false, false⟩ 1
      [⟨[0], [4], ⟨0, "cpu"⟩⟩, ⟨[4], [4], ⟨1, "cpu"⟩⟩, ⟨[8], [2], ⟨2, "cpu"⟩⟩]
      (Shard.mk (.contiguous (.detach (.clone (.narrow .base 0 4 4)))) false
        ⟨[4], [4], ⟨1, "cpu"⟩⟩) (by decide)).2.2.1 (by decide)).2

/-- Modelled from the spec: pairwise box-intersection test used by the overlap
validator: two shard boxes intersect when their half-open ranges overlap on
every dimension. -/
def boxesIntersect (a b : ShardMetadata) : Bool :=
  ((a.shard_offsets.zip a.shard_sizes).zip (b.shard_offsets.zip b.shard_sizes)).all
    (fun p => decide (p.1.1 < p.2.1 + p.2.2) && decide (p.2.1 < p.1.1 + p.1.2))

/-- Modelled from the spec: validate_non_overlapping_shards_metadata from
_internals: succeeds exactly when no two shard boxes intersect (pairwise
box-intersection test). -/
def checkNoOverlap : List ShardMetadata → Bool
  | [] => true
  | s :: rest => rest.all (fun t => !(boxesIntersect s t)) && checkNoOverlap rest

/-- Rank-consistency loop of EnumerableShardingSpec's construction: starting
from the sentinel -1, each shard's coordinate rank (the length of its offsets)
must match the previous shard's. -/
def shardsRankLoop : Int → List ShardMetadata → Except SpecError Unit
  | _, [] => .ok ()
  | rank, shard :: rest =>
    if rank ≠ -1 ∧ rank ≠ (shard.shard_offsets.length : Int) then
      .error .inconsistentRanks
    else
      shardsRankLoop (shard.shard_offsets.length : Int) rest

/-- Enumerable sharding spec: an explicit ordered shard-descriptor list. -/
structure EnumerableShardingSpec where
  shards : List ShardMetadata
  deriving DecidableEq, Repr

/-- Embedding of EnumerableShardingSpec's dataclass construction: reject an
empty shard list, then inconsistent coordinate ranks, then overlapping
shards; otherwise the spec holds the given list verbatim. -/
def EnumerableShardingSpec.make (shards : List ShardMetadata) :
    Except SpecError EnumerableShardingSpec :=
  if shards.length = 0 then .error .emptyShardList
  else
    match shardsRankLoop (-1) shards with
    | .error e => .error e
    | .ok _ =>
      if checkNoOverlap shards then .ok ⟨shards⟩ else .error .overlappingShards

/-- All coordinates of the box with the given extents. -/
def allCoords : List Nat → List (List Nat)
  | [] => [[]]
  | n :: rest => ((List.range n).map (fun i => (allCoords rest).map (fun c => i :: c))).flatten

/-- Whether a shard covers a global coordinate: matching arity and, on every
dimension, the coordinate lies in the shard's half-open range. -/
def coversCoord (s : ShardMetadata) (c : List Nat) : Bool :=
  ((s.shard_offsets.length == c.length) && (s.shard_sizes.length == c.length)) &&
  (((s.shard_offsets.zip s.shard_sizes).zip c).all
    (fun p => decide (p.1.1 ≤ p.2) && decide (p.2 < p.1.1 + p.1.2)))

/-- Whether a shard's box lies inside the global box. -/
def shardInBounds (s : ShardMetadata) (global_sizes : List Nat) : Bool :=
  ((s.shard_offsets.length == global_sizes.length) &&
   (s.shard_sizes.length == global_sizes.length)) &&
  (((s.shard_offsets.zip s.shard_sizes).zip global_sizes).all
    (fun p => decide (p.1.1 + p.1.2 ≤ p.2)))

/-- Modelled from the spec: check_tensor from _internals: succeeds exactly
when the shards exactly tile the global shape — every shard lies in bounds
and every in-bounds coordinate is covered by exactly one shard (no gaps, no
overruns, no double cover); realized by a coordinate sweep, not a volume sum. -/
def check_tensor (shards : List ShardMetadata) (tensor_sizes : List Nat) : Bool :=
  shards.all (fun s => shardInBounds s tensor_sizes) &&
  (allCoords tensor_sizes).all (fun c => shards.countP (fun s => coversCoord s c) == 1)

/-- Embedding of EnumerableShardingSpec.build_metadata: check that the shards
form a valid tiling of the given global shape, then wrap the shard list
verbatim in the supplied order. -/
def EnumerableShardingSpec.build_metadata (spec : EnumerableShardingSpec)
    (tensor_sizes : List Nat) (tensor_properties : TensorProperties) :
    Except SpecError ShardedTensorMetadata :=
  if check_tensor spec.shards tensor_sizes then
    .ok { shards_metadata := spec.shards, size := tensor_sizes,
          tensor_properties := tensor_properties }
  else .error .shapeMismatch

/-- Embedding of EnumerableShardingSpec.shard: fail immediately with the
unsupported-operation condition; no metadata built, no collective issued, no
state touched. -/
def EnumerableShardingSpec.shard (_spec : EnumerableShardingSpec) (_tensor : Tensor)
    (_src_rank _current_rank : Nat) :
    List Event × Except SpecError ShardedTensorHandle :=
  ([], .error .notImplemented)

/-- C8: calling shard on an enumerable spec always fails with the
unsupported-operation condition and performs nothing else first: the event
trace is empty (no metadata build, no collective) and no handle is produced. -/
theorem enumerable_shard_not_implemented
    (spec : EnumerableShardingSpec) (tensor : Tensor) (src_rank current_rank : Nat) :
    spec.shard tensor src_rank current_rank = ([], .error .notImplemented) :=
  rfl

lemma zip_all_intersect_symm :
    ∀ (xs ys : List (Nat × Nat)),
      ((xs.zip ys).all (fun p => decide (p.1.1 < p.2.1 + p.2.2) &&
        decide (p.2.1 < p.1.1 + p.1.2))) =
      ((ys.zip xs).all (fun p => decide (p.1.1 < p.2.1 + p.2.2) &&
        decide (p.2.1 < p.1.1 + p.1.2)))
  | [], [] => rfl
  | [], _ :: _ => rfl
  | _ :: _, [] => rfl
  | x :: xs, y :: ys => by
    have h := zip_all_intersect_symm xs ys
    simp only [List.zip_cons_cons, List.all_cons, h]
    rw [Bool.and_comm (decide (x.1 < y.1 + y.2)) (decide (y.1 < x.1 + x.2))]

lemma boxesIntersect_symm (a b : ShardMetadata) :
    boxesIntersect a b = boxesIntersect b a := by
  unfold boxesIntersect
  exact zip_all_intersect_symm _ _

lemma checkNoOverlap_false_of_pair :
    ∀ (l : List ShardMetadata) (a b : ShardMetadata), a ∈ l → b ∈ l → a ≠ b →
      boxesIntersect a b = true → checkNoOverlap l = false := by
  intro l
  induction l with
  | nil => intro a b ha _ _ _; simp at ha
  | cons s rest ih =>
    intro a b ha hb hne hint
    simp only [List.mem_cons] at ha hb
    unfold checkNoOverlap
    rcases ha with rfl | ha <;> rcases hb with rfl | hb
    · exact absurd rfl hne
    · have hall : rest.all (fun t => !(boxesIntersect a t)) = false :=
        List.all_eq_false.mpr ⟨b, hb, by simp [hint]⟩
      simp [hall]
    · rw [boxesIntersect_symm] at hint
      have hall : rest.all (fun t => !(boxesIntersect b t)) = false :=
        List.all_eq_false.mpr ⟨a, ha, by simp [hint]⟩
      simp [hall]
    · simp [ih a b ha hb hne hint]

lemma shardsRankLoop_cases :
    ∀ (l : List ShardMetadata) (r : Int),
      shardsRankLoop r l = .ok () ∨ shardsRankLoop r l = .error .inconsistentRanks := by
  intro l
  induction l with
  | nil => intro r; exact Or.inl rfl
  | cons s rest ih =>
    intro r
    unfold shardsRankLoop
    split
    · exact Or.inr rfl
    · exact ih _

lemma shardsRankLoop_ok_iff :
    ∀ (l : List ShardMetadata) (n : Nat),
      shardsRankLoop (n : Int) l = .ok () ↔ ∀ s ∈ l, s.shard_offsets.length = n := by
  intro l
  induction l with
  | nil => intro n; simp [shardsRankLoop]
  | cons s rest ih =>
    intro n
    by_cases h : n = s.shard_offsets.length
    · subst h
      rw [shardsRankLoop, if_neg (by omega)]
      rw [ih s.shard_offsets.length]
      simp
    · rw [shardsRankLoop, if_pos (by constructor <;> omega)]
      constructor
      · intro hx
        exact absurd hx (by simp)
      · intro hall
        exact absurd (hall s (by simp)).symm (by omega)

lemma shardsRankLoop_start (s : ShardMetadata) (rest : List ShardMetadata) :
    shardsRankLoop (-1) (s :: rest) =
      shardsRankLoop (s.shard_offsets.length : Int) rest := by
  rw [shardsRankLoop, if_neg (by omega)]

/-- C7: enumerable-spec construction rejects an empty shard list, rejects with
the inconsistent-rank error any list in which two shards' offset sequences
have different lengths, and rejects with the overlap error any rank-consistent
list containing two distinct intersecting boxes; for a successfully
constructed spec, build_metadata fails exactly when the shards do not tile the
declared global shape and otherwise wraps the shard list verbatim in the
supplied order. -/
theorem enumerable_spec_validation
    (shards : List ShardMetadata) (tensor_sizes : List Nat) (props : TensorProperties) :
    (shards = [] → EnumerableShardingSpec.make shards = .error .emptyShardList) ∧
    ((∃ a ∈ shards, ∃ b ∈ shards, a.shard_offsets.length ≠ b.shard_offsets.length) →
      EnumerableShardingSpec.make shards = .error .inconsistentRanks) ∧
    ((∃ a ∈ shards, ∃ b ∈ shards, a ≠ b ∧ boxesIntersect a b = true) →
      (∀ a ∈ shards, ∀ b ∈ shards, a.shard_offsets.length = b.shard_offsets.length) →
      EnumerableShardingSpec.make shards = .error .overlappingShards) ∧
    (∀ spec, EnumerableShardingSpec.make shards = .ok spec →
      spec.shards = shards ∧
      (check_tensor shards tensor_sizes = false →
        spec.build_metadata tensor_sizes props = .error .shapeMismatch) ∧
      (check_tensor shards tensor_sizes = true →
        spec.build_metadata tensor_sizes props = .ok ⟨shards, tensor_sizes, props⟩)) := by
  refine ⟨?_, ?_, ?_, ?_⟩
  · intro h
    subst h
    rfl
  · rintro ⟨a, ha, b, hb, hne⟩
    cases shards with
    | nil => simp at ha
    | cons s rest =>
      unfold EnumerableShardingSpec.make
      rw [if_neg (by simp)]
      rcases shardsRankLoop_cases rest (s.shard_offsets.length : Int) with hok | herr
      · exfalso
        have hall := (shardsRankLoop_ok_iff rest s.shard_offsets.length).mp hok
        have hlen : ∀ x ∈ s :: rest, x.shard_offsets.length = s.shard_offsets.length := by
          intro x hx
          rcases List.mem_cons.mp hx with rfl | hx
          · rfl
          · exact hall x hx
        exact hne ((hlen a ha).trans (hlen b hb).symm)
      · rw [shardsRankLoop_start, herr]
  · rintro ⟨a, ha, b, hb, hne, hint⟩ hranks
    cases shards with
    | nil => simp at ha
    | cons s rest =>
      unfold EnumerableShardingSpec.make
      rw [if_neg (by simp)]
      have hok : shardsRankLoop ((s.shard_offsets.length : Nat) : Int) rest = .ok () :=
        (shardsRankLoop_ok_iff rest s.shard_offsets.length).mpr
          (fun t ht => hranks t (by simp [ht]) s (by simp))
      rw [shardsRankLoop_start, hok]
      have hco : checkNoOverlap (s :: rest) = false :=
        checkNoOverlap_false_of_pair (s :: rest) a b ha hb hne hint
      rw [hco]
      rfl
  · intro spec hok
    unfold EnumerableShardingSpec.make at hok
    split at hok
    · exact absurd hok (by simp)
    · split at hok
      · exact absurd hok (by simp)
      · split at hok
        · simp only [Except.ok.injEq] at hok
          subst hok
          refine ⟨rfl, ?_, ?_⟩
          · intro hf
            simp [EnumerableShardingSpec.build_metadata, hf]
          · intro ht
            simp [EnumerableShardingSpec.build_metadata, ht]
        · exact absurd hok (by simp)

theorem enumerable_spec_validation_witness :
    EnumerableShardingSpec.make [] = .error .emptyShardList ∧
    EnumerableShardingSpec.make
        [⟨[0], [2], ⟨0, "cpu"⟩⟩, ⟨[0, 0], [2, 2], ⟨1, "cpu"⟩⟩] =
      .error .inconsistentRanks ∧
    EnumerableShardingSpec.make
        [⟨[0], [2], ⟨0, "cpu"⟩⟩, ⟨[1], [2], ⟨1, "cpu"⟩⟩] =
      .error .overlappingShards ∧
    EnumerableShardingSpec.build_metadata
        ⟨[⟨[0], [2], ⟨0, "cpu"⟩⟩, ⟨[2], [2], ⟨1, "cpu"⟩⟩]⟩ [4]
        ⟨"float32", "strided", false, "torch.contiguous_format", false⟩ =
      .ok ⟨[⟨[0], [2], ⟨0, "cpu"⟩⟩, ⟨[2], [2], ⟨1, "cpu"⟩⟩], [4],
           ⟨"float32", "strided", false, "torch.contiguous_format", false⟩⟩ :=
  ⟨(enumerable_spec_validation [] [4]
      ⟨"float32", "strided", false, "torch.contiguous_format", false⟩).1 rfl,
   (enumerable_spec_validation
      [⟨[0], [2], ⟨0, "cpu"⟩⟩, ⟨[0, 0], [2, 2], ⟨1, "cpu"⟩⟩] [4]
      ⟨"float32", "strided", false, "torch.contiguous_format", false⟩).2.1
     (by decide),
   (enumerable_spec_validation
      [⟨[0], [2], ⟨0, "cpu"⟩⟩, ⟨[1], [2], ⟨1, "cpu"⟩⟩] [4]
      ⟨"float32", "strided", false, "torch.contiguous_format", false⟩).2.2.1
     (by decide) (by decide),
   ((enumerable_spec_validation
      [⟨[0], [2], ⟨0, "cpu"⟩⟩, ⟨[2], [2], ⟨1, "cpu"⟩⟩] [4]
      ⟨"float32", "strided", false, "torch.contiguous_format", false⟩).2.2.2
     ⟨[⟨[0], [2], ⟨0, "cpu"⟩⟩, ⟨[2], [2], ⟨1, "cpu"⟩⟩]⟩ rfl).2.2 (by decide)⟩

/-- Placement entry as supplied by the caller to ChunkShardingSpec: either a
raw placement string or an already-constructed remote-device object. -/
inductive PlacementEntry where
  | str (s : String) : PlacementEntry
  | dev (d : RemoteDevice) : PlacementEntry
  deriving DecidableEq, Repr

/-- Normalization loop of ChunkShardingSpec's dataclass construction: each
slot holding an entry that is not a remote-device object is overwritten with
the parsed remote device; device objects pass through untouched. The parse of
a placement string is supplied as a parameter, the external collaborator being
out of scope. -/
def normalizeLoop (toRemote : String → RemoteDevice) :
    List PlacementEntry → List PlacementEntry
  | [] => []
  | .str s :: rest => .dev (toRemote s) :: normalizeLoop toRemote rest
  | .dev d :: rest => .dev d :: normalizeLoop toRemote rest

/-- Heap of caller-owned placement lists, addressed by reference; the
dataclass construction mutates the referenced list in place, so the caller
observes the update through its own reference. -/
structure PlacementStore where
  lists : Nat → List PlacementEntry

/-- Embedding of ChunkShardingSpec's dataclass construction step acting on the
caller's list: the referenced list object is replaced slot by slot with the
normalized entries; no other list is touched. -/
def chunkSpecPostInit (toRemote : String → RemoteDevice) (store : PlacementStore)
    (ref : Nat) : PlacementStore :=
  { lists := fun r =>
      if r = ref then normalizeLoop toRemote (store.lists ref)
      else store.lists r }

lemma normalizeLoop_get? (toRemote : String → RemoteDevice) :
    ∀ (l : List PlacementEntry) (i : Nat) (s : String),
      l.get? i = some (.str s) →
      (normalizeLoop toRemote l).get? i = some (.dev (toRemote s)) := by
  intro l
  induction l with
  | nil => intro i s h; simp at h
  | cons e rest ih =>
    intro i s h
    cases i with
    | zero =>
      simp only [List.get?] at h
      cases e with
      | str s0 =>
        simp only [Option.some.injEq] at h
        rw [show PlacementEntry.str s0 = PlacementEntry.str s from h]
        rfl
      | dev d => exact absurd h (by simp)
    | succ j =>
      cases e with
      | str s0 => exact ih j s (by simpa using h)
      | dev d => exact ih j s (by simpa using h)

/-- C10: the construction step mutates the caller-supplied placements list in
place: afterwards the same list object (the same store reference) holds the
normalized entries — every slot that held a placement string now holds the
parsed remote-device object, so the original string elements are gone — and
every other list in the store is untouched. -/
theorem chunk_spec_post_init_mutates_in_place
    (toRemote : String → RemoteDevice) (store : PlacementStore) (ref : Nat) :
    (chunkSpecPostInit toRemote store ref).lists ref =
      normalizeLoop toRemote (store.lists ref) ∧
    (∀ i s, (store.lists ref).get? i = some (.str s) →
      ((chunkSpecPostInit toRemote store ref).lists ref).get? i =
        some (.dev (toRemote s)) ∧ PlacementEntry.dev (toRemote s) ≠ .str s) ∧
    (∀ r, r ≠ ref → (chunkSpecPostInit toRemote store ref).lists r = store.lists r) := by
  refine ⟨by simp [chunkSpecPostInit], ?_, ?_⟩
  · intro i s h
    constructor
    · simp only [chunkSpecPostInit, if_pos rfl]
      exact normalizeLoop_get? toRemote _ i s h
    · intro hx
      exact absurd hx (by simp)
  · intro r hr
    simp [chunkSpecPostInit, hr]

theorem chunk_spec_post_init_mutates_in_place_witness :
    ((chunkSpecPostInit (fun s => ⟨0, s⟩)
        ⟨fun _ => [.str "rank:1/cpu", .dev ⟨2, "cpu"⟩]⟩ 0).lists 0).get? 0 =
      some (.dev ⟨0, "rank:1/cpu"⟩) ∧
    PlacementEntry.dev ⟨0, "rank:1/cpu"⟩ ≠ .str "rank:1/cpu" :=
  (chunk_spec_post_init_mutates_in_place (fun s => ⟨0, s⟩)
      ⟨fun _ => [.str "rank:1/cpu", .dev ⟨2, "cpu"⟩]⟩ 0).2.1 0 "rank:1/cpu" rfl
